import Mathlib

/-
Verification of the store-engine build coordinator (build.cc): the Goal
scheduler, DerivationGoal and SubstitutionGoal state machines, and the
Worker's child accounting.  The definitions below are a shallow embedding
of the corresponding C++ functions; filesystem primitives and hashing
(which live in other translation units) are abstracted as parameters, and
the metadata-store transaction is modelled as an explicit event trace with
buffered writes applied atomically at commit.
-/

set_option maxHeartbeats 1000000

namespace NixBuild

abbrev Path := String

/-- Hash algorithms known to parseHashType (hash.cc, not part of the
coordinator sources).  Modelled from the spec: fixed-output derivations
declare a hashAlgo string; unrecognized strings yield htUnknown. -/
inductive HashType where
  | md5
  | sha1
  | sha256
  | unknownHT
deriving DecidableEq

def parseHashType (s : String) : HashType :=
  if s = "md5" then .md5
  else if s = "sha1" then .sha1
  else if s = "sha256" then .sha256
  else .unknownHT

/-- One output of a derivation: its declared store path and, for
fixed-output derivations, the declared hash algorithm and hash. -/
structure DerivationOutput where
  path : Path
  hashAlgo : String
  hash : String
deriving DecidableEq

/-- The derivation record (parsed from the store expression). -/
structure Derivation where
  outputs : List (String × DerivationOutput)
  inputDrvs : List (Path × List String)
  inputSrcs : List Path
  platform : String
  builder : Path
  args : List String
  env : List (String × String)

/-- Abstraction of the filesystem and hashing primitives used by the
coordinator (pathExists, lstat, hashFile, hashPath, filterReferences).
These live in util.cc / hash.cc / references.cc; the coordinator only
calls them, so they are parameters of the model. -/
structure FS where
  pathExists : Path → Bool
  isRegularFile : Path → Bool
  isExecutable : Path → Bool
  hashFile : HashType → Path → String
  hashPath : Path → String
  filterRefs : Path → List Path → List Path

/- ----------------------------------------------------------------- -/
/- Environment construction in DerivationGoal::startBuilder.         -/
/- ----------------------------------------------------------------- -/

/-- Point update of an environment map, the effect of env[k] = v on a
C++ map from strings to strings. -/
def setEnv (e : String → Option String) (k v : String) : String → Option String :=
  fun x => if x = k then some v else e x

theorem setEnv_self (e : String → Option String) (k v : String) :
    setEnv e k v k = some v := if_pos rfl

theorem setEnv_ne (e : String → Option String) (k v x : String) (h : x ≠ k) :
    setEnv e k v x = e x := if_neg h

/-- Folding the bindings of drv.env into the environment, the loop
adding all bindings specified in the derivation. -/
def overlayEnv (e : String → Option String) (bs : List (String × String)) :
    String → Option String :=
  bs.foldl (fun acc kv => setEnv acc kv.1 kv.2) e

/-- The scrubbed defaults set before the drv.env overlay: PATH, HOME and
NIX_STORE, in the order of the assignments in startBuilder. -/
def scrubbedEnv (storeDir : String) : String → Option String :=
  setEnv (setEnv (setEnv (fun _ => none)
    "PATH" "/path-not-set")
    "HOME" "/homeless-shelter")
    "NIX_STORE" storeDir

/-- The environment constructed for the forked builder, in the exact
order of the assignments in startBuilder: PATH, HOME, NIX_STORE, then
the drv.env overlay, then NIX_BUILD_TOP and the TMPDIR family (the
chained assignment writes TEMP first and TMPDIR last). -/
def builderEnv (storeDir : String) (drv : Derivation) (tmpDir : Path) :
    String → Option String :=
  setEnv (setEnv (setEnv (setEnv (setEnv
    (overlayEnv (scrubbedEnv storeDir) drv.env)
    "NIX_BUILD_TOP" tmpDir)
    "TEMP" tmpDir)
    "TMP" tmpDir)
    "TEMPDIR" tmpDir)
    "TMPDIR" tmpDir

theorem overlayEnv_not_mem (bs : List (String × String))
    (e : String → Option String) (k : String)
    (h : k ∉ bs.map Prod.fst) : overlayEnv e bs k = e k := by
  induction bs generalizing e with
  | nil => rfl
  | cons kv tl ih =>
    rw [List.map_cons, List.mem_cons, not_or] at h
    have := ih (setEnv e kv.1 kv.2) h.2
    rw [show overlayEnv e (kv :: tl) k = overlayEnv (setEnv e kv.1 kv.2) tl k from rfl,
      this, setEnv_ne _ _ _ _ h.1]

theorem overlayEnv_lookup_none (bs : List (String × String))
    (e : String → Option String) (k : String)
    (h : List.lookup k bs = none) : overlayEnv e bs k = e k := by
  induction bs generalizing e with
  | nil => rfl
  | cons kv tl ih =>
    by_cases hk : k = kv.1
    · simp [List.lookup, hk] at h
    · have hb : (k == kv.1) = false := by simpa using hk
      rw [List.lookup, hb] at h
      have := ih (setEnv e kv.1 kv.2) h
      rw [show overlayEnv e (kv :: tl) k = overlayEnv (setEnv e kv.1 kv.2) tl k from rfl,
        this, setEnv_ne _ _ _ _ hk]

theorem overlayEnv_lookup (bs : List (String × String))
    (e : String → Option String) (k : String) (v : String)
    (hnd : (bs.map Prod.fst).Nodup)
    (h : List.lookup k bs = some v) : overlayEnv e bs k = some v := by
  induction bs generalizing e with
  | nil => simp [List.lookup] at h
  | cons kv tl ih =>
    rw [List.map_cons, List.nodup_cons] at hnd
    by_cases hk : k = kv.1
    · have hb : (k == kv.1) = true := by simpa using hk
      rw [List.lookup, hb] at h
      have hnotin : k ∉ tl.map Prod.fst := by rw [hk]; exact hnd.1
      rw [show overlayEnv e (kv :: tl) k = overlayEnv (setEnv e kv.1 kv.2) tl k from rfl,
        overlayEnv_not_mem tl (setEnv e kv.1 kv.2) k hnotin, hk, setEnv_self]
      rw [Option.some_inj] at h
      rw [h]
    · have hb : (k == kv.1) = false := by simpa using hk
      rw [List.lookup, hb] at h
      exact ih (setEnv e kv.1 kv.2) hnd.2 h

/-- A derivation whose env binds TMPDIR, to exercise the overlay order. -/
def drvWithTmpdir : Derivation :=
  { outputs := []
    inputDrvs := []
    inputSrcs := []
    platform := "i686-linux"
    builder := "/bin/sh"
    args := []
    env := [("TMPDIR", "/evil")] }

/-- C3 counterexample: drv.env maps TMPDIR to /evil, yet the final
builder environment maps TMPDIR to the fresh temporary directory,
because startBuilder assigns the TMPDIR family after the drv.env
overlay.  So it is not the case that for every key k of drv.env the
final environment maps k to drv.env[k]. -/
theorem builderEnv_tmpdir_counterexample :
    List.lookup "TMPDIR" drvWithTmpdir.env = some "/evil"
    ∧ builderEnv "/nix/store" drvWithTmpdir "/tmp/nix-42" "TMPDIR" = some "/tmp/nix-42"
    ∧ ("/tmp/nix-42" : String) ≠ "/evil" :=
  ⟨rfl, rfl, by decide⟩

/-- C3 (amended): the builder environment maps NIX_BUILD_TOP and the
TMPDIR family to the fresh temporary directory unconditionally; every
key of drv.env other than those five overlays the defaults; and PATH,
HOME and NIX_STORE keep their scrubbed defaults when drv.env does not
bind them. -/
theorem builderEnv_overlay (storeDir : String) (drv : Derivation) (tmpDir : Path)
    (hnd : (drv.env.map Prod.fst).Nodup) :
    (builderEnv storeDir drv tmpDir "NIX_BUILD_TOP" = some tmpDir
      ∧ builderEnv storeDir drv tmpDir "TMPDIR" = some tmpDir
      ∧ builderEnv storeDir drv tmpDir "TEMPDIR" = some tmpDir
      ∧ builderEnv storeDir drv tmpDir "TMP" = some tmpDir
      ∧ builderEnv storeDir drv tmpDir "TEMP" = some tmpDir)
    ∧ (∀ k v, k ≠ "NIX_BUILD_TOP" → k ≠ "TMPDIR" → k ≠ "TEMPDIR" →
        k ≠ "TMP" → k ≠ "TEMP" →
        List.lookup k drv.env = some v →
        builderEnv storeDir drv tmpDir k = some v)
    ∧ (List.lookup "PATH" drv.env = none →
        builderEnv storeDir drv tmpDir "PATH" = some "/path-not-set")
    ∧ (List.lookup "HOME" drv.env = none →
        builderEnv storeDir drv tmpDir "HOME" = some "/homeless-shelter")
    ∧ (List.lookup "NIX_STORE" drv.env = none →
        builderEnv storeDir drv tmpDir "NIX_STORE" = some storeDir) := by
  refine ⟨⟨?_, ?_, ?_, ?_, ?_⟩, ?_, ?_, ?_, ?_⟩
  · rw [builderEnv, setEnv_ne _ _ _ _ (by decide), setEnv_ne _ _ _ _ (by decide),
      setEnv_ne _ _ _ _ (by decide), setEnv_ne _ _ _ _ (by decide), setEnv_self]
  · rw [builderEnv, setEnv_self]
  · rw [builderEnv, setEnv_ne _ _ _ _ (by decide), setEnv_self]
  · rw [builderEnv, setEnv_ne _ _ _ _ (by decide), setEnv_ne _ _ _ _ (by decide),
      setEnv_self]
  · rw [builderEnv, setEnv_ne _ _ _ _ (by decide), setEnv_ne _ _ _ _ (by decide),
      setEnv_ne _ _ _ _ (by decide), setEnv_self]
  · intro k v h1 h2 h3 h4 h5 hlk
    rw [builderEnv, setEnv_ne _ _ _ _ h2, setEnv_ne _ _ _ _ h3,
      setEnv_ne _ _ _ _ h4, setEnv_ne _ _ _ _ h5, setEnv_ne _ _ _ _ h1]
    exact overlayEnv_lookup drv.env _ k v hnd hlk
  · intro h
    rw [builderEnv, setEnv_ne _ _ _ _ (by decide), setEnv_ne _ _ _ _ (by decide),
      setEnv_ne _ _ _ _ (by decide), setEnv_ne _ _ _ _ (by decide),
      setEnv_ne _ _ _ _ (by decide),
      overlayEnv_lookup_none drv.env _ "PATH" h, scrubbedEnv,
      setEnv_ne _ _ _ _ (by decide), setEnv_ne _ _ _ _ (by decide), setEnv_self]
  · intro h
    rw [builderEnv, setEnv_ne _ _ _ _ (by decide), setEnv_ne _ _ _ _ (by decide),
      setEnv_ne _ _ _ _ (by decide), setEnv_ne _ _ _ _ (by decide),
      setEnv_ne _ _ _ _ (by decide),
      overlayEnv_lookup_none drv.env _ "HOME" h, scrubbedEnv,
      setEnv_ne _ _ _ _ (by decide), setEnv_self]
  · intro h
    rw [builderEnv, setEnv_ne _ _ _ _ (by decide), setEnv_ne _ _ _ _ (by decide),
      setEnv_ne _ _ _ _ (by decide), setEnv_ne _ _ _ _ (by decide),
      setEnv_ne _ _ _ _ (by decide),
      overlayEnv_lookup_none drv.env _ "NIX_STORE" h, scrubbedEnv, setEnv_self]

/-- Witness for C3 (amended) at a concrete derivation. -/
theorem builderEnv_overlay_witness :
    ((drvWithTmpdir.env.map Prod.fst).Nodup)
    ∧ builderEnv "/nix/store" drvWithTmpdir "/tmp/nix-42" "TMP" = some "/tmp/nix-42"
    ∧ builderEnv "/nix/store" drvWithTmpdir "/tmp/nix-42" "HOME" = some "/homeless-shelter" := by
  have hnd : (drvWithTmpdir.env.map Prod.fst).Nodup := by decide
  have h := builderEnv_overlay "/nix/store" drvWithTmpdir "/tmp/nix-42" hnd
  exact ⟨hnd, h.1.2.2.2.1, h.2.2.2.1 rfl⟩

/- ----------------------------------------------------------------- -/
/- The metadata-store transaction, modelled as an event trace.       -/
/- ----------------------------------------------------------------- -/

/-- A write issued inside a store transaction: registerValidPath writes
the content hash of a path into validpaths, setReferences writes its
outgoing reference list. -/
inductive DbWrite where
  | registerValid (p : Path) (h : String)
  | setRefs (p : Path) (rs : List Path)
deriving DecidableEq

/-- An observable event of the coordinator: canonicalisation of a path,
transaction begin / buffered write / commit, marking the output locks
for deletion, deletion of a stray path, and forking the builder. -/
inductive Action where
  | canonicalise (p : Path)
  | beginTxn
  | dbWrite (w : DbWrite)
  | commitTxn
  | lockSetDeletion
  | deletePath (p : Path)
  | forkBuilder
deriving DecidableEq

/-- The two mutable tables of the metadata store that registration
touches: validpaths (path to content hash) and references. -/
structure DbState where
  validPaths : Path → Option String
  refsTable : Path → Option (List Path)

def applyWrite (db : DbState) : DbWrite → DbState
  | .registerValid p h =>
      { db with validPaths := fun x => if x = p then some h else db.validPaths x }
  | .setRefs p rs =>
      { db with refsTable := fun x => if x = p then some rs else db.refsTable x }

/-- Modelled from the spec: multiple updates within one transaction are
atomic against crashes (MetaStore, db.cc, is not among the coordinator
sources).  Writes issued between beginTxn and commitTxn are buffered in
pending and applied to the durable state all at once at commitTxn; a
crash simply truncates the event trace, discarding the buffer. -/
structure TxnState where
  db : DbState
  pending : Option (List DbWrite)

def stepAction (s : TxnState) : Action → TxnState
  | .beginTxn => { s with pending := some [] }
  | .dbWrite w =>
      match s.pending with
      | some ws => { s with pending := some (ws ++ [w]) }
      | none => s
  | .commitTxn =>
      match s.pending with
      | some ws => { db := ws.foldl applyWrite s.db, pending := none }
      | none => s
  | _ => s

def runActions (s : TxnState) (l : List Action) : TxnState :=
  l.foldl stepAction s

/- ----------------------------------------------------------------- -/
/- DerivationGoal::computeClosure.                                   -/
/- ----------------------------------------------------------------- -/

/-- The errors computeClosure can raise before reaching registration. -/
inductive ClosureError where
  | missingOutput (drvPath p : Path)
  | unknownHashAlgo (a : String)
  | hashMismatch (p : Path) (algo : String) (expected actual : String)
  | notRegularNonExecutable (p : Path)
deriving DecidableEq

/-- What computeClosure accumulates for one output: its path, the
reference set to be registered for it, and its content hash. -/
structure OutputInfo where
  path : Path
  refs : List Path
  contentHash : String
deriving DecidableEq

/-- The nix-support/no-scan marker check guarding reference scanning. -/
def noScanMarker (fs : FS) (p : Path) : Bool :=
  fs.pathExists (p ++ "/nix-support/no-scan")

/-- The reference set computed for one output: empty when the no-scan
marker is present, otherwise the paths filterReferences finds among the
candidates (allPaths). -/
def scanRefs (fs : FS) (allPaths : List Path) (p : Path) : List Path :=
  if noScanMarker fs p then [] else fs.filterRefs p allPaths

/-- The per-output body of the computeClosure loop: existence check,
fixed-output hash validation when the declared hash is non-empty, then
reference scanning and content hashing. -/
def processOutput (fs : FS) (drvPath : Path) (allPaths : List Path)
    (o : DerivationOutput) : Except ClosureError OutputInfo :=
  if fs.pathExists o.path = false then
    .error (.missingOutput drvPath o.path)
  else if o.hash = "" then
    .ok ⟨o.path, scanRefs fs allPaths o.path, fs.hashPath o.path⟩
  else if parseHashType o.hashAlgo = .unknownHT then
    .error (.unknownHashAlgo o.hashAlgo)
  else if o.hash ≠ fs.hashFile (parseHashType o.hashAlgo) o.path then
    .error (.hashMismatch o.path o.hashAlgo o.hash
      (fs.hashFile (parseHashType o.hashAlgo) o.path))
  else if ¬ (fs.isRegularFile o.path = true ∧ fs.isExecutable o.path = false) then
    .error (.notRegularNonExecutable o.path)
  else
    .ok ⟨o.path, scanRefs fs allPaths o.path, fs.hashPath o.path⟩

/-- The computeClosure loop over drv.outputs, collecting allReferences
and contentHashes; the first error aborts the build before any
registration. -/
def closureEntries (fs : FS) (drvPath : Path) (allPaths : List Path) :
    List (String × DerivationOutput) → Except ClosureError (List OutputInfo)
  | [] => .ok []
  | (_, o) :: rest => do
    let e ← processOutput fs drvPath allPaths o
    let es ← closureEntries fs drvPath allPaths rest
    .ok (e :: es)

/-- The transaction writes of the registration loop: for each output in
order, registerValidPath with its content hash, then setReferences with
its scanned references. -/
def writesOf : List OutputInfo → List DbWrite
  | [] => []
  | e :: es => .registerValid e.path e.contentHash :: .setRefs e.path e.refs :: writesOf es

/-- The full event trace of computeClosure after all outputs passed
their checks: canonicalisation of each output during the loop, then one
transaction holding every registration write, then (only after commit)
marking the output locks for deletion. -/
def closureTrace (es : List OutputInfo) : List Action :=
  (es.map fun e => Action.canonicalise e.path)
    ++ (Action.beginTxn :: (writesOf es).map Action.dbWrite)
    ++ [Action.commitTxn, Action.lockSetDeletion]

def computeClosureEvents (fs : FS) (drvPath : Path) (allPaths : List Path)
    (outputs : List (String × DerivationOutput)) : Except ClosureError (List Action) :=
  (closureEntries fs drvPath allPaths outputs).map closureTrace

theorem runActions_append (s : TxnState) (l1 l2 : List Action) :
    runActions s (l1 ++ l2) = runActions (runActions s l1) l2 :=
  List.foldl_append ..

theorem runActions_cons (s : TxnState) (a : Action) (l : List Action) :
    runActions s (a :: l) = runActions (stepAction s a) l := rfl

theorem stepAction_db_ne_commit (s : TxnState) (a : Action)
    (h : a ≠ Action.commitTxn) : (stepAction s a).db = s.db := by
  cases a with
  | beginTxn => rfl
  | dbWrite w => cases hp : s.pending <;> simp [stepAction, hp]
  | commitTxn => exact absurd rfl h
  | canonicalise p => rfl
  | lockSetDeletion => rfl
  | deletePath p => rfl
  | forkBuilder => rfl

theorem runActions_db_no_commit (l : List Action) (s : TxnState)
    (h : Action.commitTxn ∉ l) : (runActions s l).db = s.db := by
  induction l generalizing s with
  | nil => rfl
  | cons a tl ih =>
    rw [List.mem_cons, not_or] at h
    have h1 : a ≠ Action.commitTxn := fun he => h.1 he.symm
    rw [runActions_cons, ih _ h.2, stepAction_db_ne_commit s a h1]

theorem runActions_canonicalise (es : List OutputInfo) (s : TxnState) :
    runActions s (es.map fun e => Action.canonicalise e.path) = s := by
  induction es generalizing s with
  | nil => rfl
  | cons e tl ih =>
    rw [List.map_cons, runActions_cons,
      show stepAction s (Action.canonicalise e.path) = s from rfl]
    exact ih s

theorem runActions_buffer (ws : List DbWrite) (db : DbState) (buf : List DbWrite) :
    runActions ⟨db, some buf⟩ (ws.map Action.dbWrite) = ⟨db, some (buf ++ ws)⟩ := by
  induction ws generalizing buf with
  | nil => simp [runActions]
  | cons w tl ih =>
    rw [List.map_cons, runActions_cons,
      show stepAction ⟨db, some buf⟩ (Action.dbWrite w) = ⟨db, some (buf ++ [w])⟩ from rfl,
      ih (buf ++ [w])]
    simp

/-- The store path a transaction write touches. -/
def writePath : DbWrite → Path
  | .registerValid p _ => p
  | .setRefs p _ => p

theorem applyWrite_valid_other (db : DbState) (w : DbWrite) (p : Path)
    (h : writePath w ≠ p) : (applyWrite db w).validPaths p = db.validPaths p := by
  cases w with
  | registerValid q hsh =>
    have hq : q ≠ p := h
    show (if p = q then some hsh else db.validPaths p) = db.validPaths p
    rw [if_neg (fun he => hq he.symm)]
  | setRefs q rs => rfl

theorem applyWrite_refs_other (db : DbState) (w : DbWrite) (p : Path)
    (h : writePath w ≠ p) : (applyWrite db w).refsTable p = db.refsTable p := by
  cases w with
  | registerValid q hsh => rfl
  | setRefs q rs =>
    have hq : q ≠ p := h
    show (if p = q then some rs else db.refsTable p) = db.refsTable p
    rw [if_neg (fun he => hq he.symm)]

theorem foldl_apply_preserve (ws : List DbWrite) (db : DbState) (p : Path)
    (h : ∀ w ∈ ws, writePath w ≠ p) :
    (ws.foldl applyWrite db).validPaths p = db.validPaths p
    ∧ (ws.foldl applyWrite db).refsTable p = db.refsTable p := by
  induction ws generalizing db with
  | nil => exact ⟨rfl, rfl⟩
  | cons w tl ih =>
    have hw := h w (List.mem_cons_self w tl)
    have htl : ∀ w' ∈ tl, writePath w' ≠ p :=
      fun w' hw' => h w' (List.mem_cons_of_mem _ hw')
    have hrec := ih (applyWrite db w) htl
    refine ⟨?_, ?_⟩
    · rw [List.foldl_cons, hrec.1, applyWrite_valid_other db w p hw]
    · rw [List.foldl_cons, hrec.2, applyWrite_refs_other db w p hw]

theorem writesOf_path_mem (es : List OutputInfo) (w : DbWrite)
    (h : w ∈ writesOf es) : writePath w ∈ es.map OutputInfo.path := by
  induction es with
  | nil => cases h
  | cons e tl ih =>
    rw [writesOf] at h
    rcases List.mem_cons.mp h with h1 | h1
    · rw [h1]; exact List.mem_cons_self _ _
    · rcases List.mem_cons.mp h1 with h2 | h2
      · rw [h2]; exact List.mem_cons_self _ _
      · exact List.mem_cons_of_mem _ (ih h2)

theorem setRefs_mem_writesOf (es : List OutputInfo) (e : OutputInfo)
    (he : e ∈ es) : DbWrite.setRefs e.path e.refs ∈ writesOf es := by
  induction es with
  | nil => cases he
  | cons e0 tl ih =>
    rw [writesOf]
    rcases List.mem_cons.mp he with h | h
    · rw [h]; exact List.mem_cons_of_mem _ (List.mem_cons_self _ _)
    · exact List.mem_cons_of_mem _ (List.mem_cons_of_mem _ (ih h))

theorem foldl_writesOf_result (es : List OutputInfo) (db : DbState)
    (hnd : (es.map OutputInfo.path).Nodup) :
    ∀ e ∈ es, ((writesOf es).foldl applyWrite db).validPaths e.path = some e.contentHash
      ∧ ((writesOf es).foldl applyWrite db).refsTable e.path = some e.refs := by
  induction es generalizing db with
  | nil => intro e he; cases he
  | cons e0 tl ih =>
    rw [List.map_cons, List.nodup_cons] at hnd
    intro e he
    rw [writesOf, List.foldl_cons, List.foldl_cons]
    rcases List.mem_cons.mp he with he0 | hetl
    · subst he0
      have hall : ∀ w ∈ writesOf tl, writePath w ≠ e.path := by
        intro w hw hcontra
        exact hnd.1 (hcontra ▸ writesOf_path_mem tl w hw)
      have hpres := foldl_apply_preserve (writesOf tl)
        (applyWrite (applyWrite db (.registerValid e.path e.contentHash))
          (.setRefs e.path e.refs)) e.path hall
      refine ⟨?_, ?_⟩
      · rw [hpres.1]
        show (applyWrite (applyWrite db
          (.registerValid e.path e.contentHash)) (.setRefs e.path e.refs)).validPaths e.path
          = some e.contentHash
        simp [applyWrite]
      · rw [hpres.2]
        show (applyWrite (applyWrite db
          (.registerValid e.path e.contentHash)) (.setRefs e.path e.refs)).refsTable e.path
          = some e.refs
        simp [applyWrite]
    · exact ih _ hnd.2 e hetl

theorem commit_not_mem_closure_body (es : List OutputInfo) :
    Action.commitTxn ∉ ((es.map fun e => Action.canonicalise e.path)
      ++ Action.beginTxn :: (writesOf es).map Action.dbWrite) := by
  intro h
  rcases List.mem_append.mp h with h | h
  · rcases List.mem_map.mp h with ⟨e, _, he⟩; simp at he
  · rcases List.mem_cons.mp h with h | h
    · cases h
    · rcases List.mem_map.mp h with ⟨w, _, hw⟩; simp at hw

theorem lockdel_not_mem_closure_body (es : List OutputInfo) :
    Action.lockSetDeletion ∉ ((es.map fun e => Action.canonicalise e.path)
      ++ Action.beginTxn :: (writesOf es).map Action.dbWrite) := by
  intro h
  rcases List.mem_append.mp h with h | h
  · rcases List.mem_map.mp h with ⟨e, _, he⟩; simp at he
  · rcases List.mem_cons.mp h with h | h
    · cases h
    · rcases List.mem_map.mp h with ⟨w, _, hw⟩; simp at hw

theorem runActions_closure_body (es : List OutputInfo) (db0 : DbState) :
    runActions ⟨db0, none⟩
      ((es.map fun e => Action.canonicalise e.path)
        ++ Action.beginTxn :: (writesOf es).map Action.dbWrite)
      = ⟨db0, some (writesOf es)⟩ := by
  rw [runActions_append, runActions_canonicalise, runActions_cons,
    show stepAction ⟨db0, none⟩ Action.beginTxn = ⟨db0, some []⟩ from rfl,
    runActions_buffer]
  simp

/-- C1: once a derivation build reaches registration, the content hash
and reference set of every output are written inside one transaction:
truncating the computeClosure event trace at any point (a crash) leaves
the database either with every output registered (hash and references
present) or with none of them valid; and the trace marks the output
locks for deletion only after the commit event. -/
theorem computeClosure_registration_atomic
    (fs : FS) (drvPath : Path) (allPaths : List Path)
    (outputs : List (String × DerivationOutput)) (es : List OutputInfo)
    (db0 : DbState) (n : Nat)
    (hok : closureEntries fs drvPath allPaths outputs = .ok es)
    (hnd : (es.map OutputInfo.path).Nodup)
    (hinit : ∀ e ∈ es, db0.validPaths e.path = none) :
    (Action.lockSetDeletion ∈ (closureTrace es).take n →
      Action.commitTxn ∈ (closureTrace es).take n)
    ∧ ((∀ e ∈ es,
          (runActions ⟨db0, none⟩ ((closureTrace es).take n)).db.validPaths e.path
              = some e.contentHash
          ∧ (runActions ⟨db0, none⟩ ((closureTrace es).take n)).db.refsTable e.path
              = some e.refs)
        ∨ (∀ e ∈ es,
          (runActions ⟨db0, none⟩ ((closureTrace es).take n)).db.validPaths e.path
              = none)) := by
  have htrace : closureTrace es
      = ((es.map fun e => Action.canonicalise e.path)
          ++ Action.beginTxn :: (writesOf es).map Action.dbWrite)
        ++ [Action.commitTxn, Action.lockSetDeletion] := by
    rw [closureTrace, List.append_assoc]
  set A0 : List Action :=
    (es.map fun e => Action.canonicalise e.path)
      ++ Action.beginTxn :: (writesOf es).map Action.dbWrite with hA0
  have htake : (closureTrace es).take n
      = A0.take n ++ [Action.commitTxn, Action.lockSetDeletion].take (n - A0.length) := by
    rw [htrace, List.take_append_eq_append_take]
  by_cases hn : n ≤ A0.length
  · have hz : n - A0.length = 0 := Nat.sub_eq_zero_of_le hn
    rw [hz] at htake
    simp only [List.take_zero, List.append_nil] at htake
    have hnc : Action.commitTxn ∉ (closureTrace es).take n := by
      rw [htake]
      intro hmem
      exact commit_not_mem_closure_body es (List.take_subset n A0 hmem)
    refine ⟨?_, Or.inr ?_⟩
    · intro hl
      rw [htake] at hl
      exact absurd (List.take_subset n A0 hl) (lockdel_not_mem_closure_body es)
    · intro e he
      rw [runActions_db_no_commit _ _ hnc]
      exact hinit e he
  · push_neg at hn
    have hA0take : A0.take n = A0 := List.take_of_length_le (Nat.le_of_lt hn)
    have hm : 1 ≤ n - A0.length := by omega
    obtain ⟨k, hk⟩ : ∃ k, n - A0.length = k + 1 :=
      ⟨n - A0.length - 1, by omega⟩
    rw [hA0take, hk] at htake
    have hrest : [Action.commitTxn, Action.lockSetDeletion].take (k + 1)
        = Action.commitTxn :: [Action.lockSetDeletion].take k := rfl
    rw [hrest] at htake
    have hcm : Action.commitTxn ∈ (closureTrace es).take n := by
      rw [htake]
      exact List.mem_append_right _ (List.mem_cons_self _ _)
    have hdb : (runActions ⟨db0, none⟩ ((closureTrace es).take n)).db
        = (writesOf es).foldl applyWrite db0 := by
      rw [htake, runActions_append, runActions_closure_body, runActions_cons,
        show stepAction ⟨db0, some (writesOf es)⟩ Action.commitTxn
          = ⟨(writesOf es).foldl applyWrite db0, none⟩ from rfl]
      apply runActions_db_no_commit
      intro hmem
      rcases List.mem_singleton.mp (List.take_subset k _ hmem)
    refine ⟨fun _ => hcm, Or.inl ?_⟩
    intro e he
    rw [hdb]
    exact foldl_writesOf_result es db0 hnd e he

/-- A filesystem on which every path exists as a regular non-executable
file (so every output also carries the no-scan marker). -/
def fsAlwaysThere : FS :=
  { pathExists := fun _ => true
    isRegularFile := fun _ => true
    isExecutable := fun _ => false
    hashFile := fun _ _ => "f3a2"
    hashPath := fun _ => "0123"
    filterRefs := fun _ c => c }

def outputsTwo : List (String × DerivationOutput) :=
  [("out", ⟨"/nix/store/aaa-first", "", ""⟩),
   ("lib", ⟨"/nix/store/bbb-second", "", ""⟩)]

def entriesTwo : List OutputInfo :=
  [⟨"/nix/store/aaa-first", [], "0123"⟩,
   ⟨"/nix/store/bbb-second", [], "0123"⟩]

def dbEmpty : DbState :=
  { validPaths := fun _ => none, refsTable := fun _ => none }

/-- Witness for C1 at a concrete two-output derivation. -/
theorem computeClosure_registration_atomic_witness :
    closureEntries fsAlwaysThere "/nix/store/ddd.drv"
        ["/nix/store/aaa-first", "/nix/store/bbb-second"] outputsTwo = .ok entriesTwo
    ∧ (entriesTwo.map OutputInfo.path).Nodup
    ∧ (Action.lockSetDeletion ∈ (closureTrace entriesTwo).take 9 →
        Action.commitTxn ∈ (closureTrace entriesTwo).take 9) := by
  have h := computeClosure_registration_atomic fsAlwaysThere "/nix/store/ddd.drv"
    ["/nix/store/aaa-first", "/nix/store/bbb-second"] outputsTwo entriesTwo dbEmpty 9
    rfl (by decide) (fun e _ => rfl)
  exact ⟨rfl, by decide, h.1⟩

theorem processOutput_ok_fixed (fs : FS) (drvPath : Path) (allPaths : List Path)
    (o : DerivationOutput) (e : OutputInfo)
    (h : processOutput fs drvPath allPaths o = .ok e) (hne : o.hash ≠ "") :
    parseHashType o.hashAlgo ≠ .unknownHT
    ∧ o.hash = fs.hashFile (parseHashType o.hashAlgo) o.path
    ∧ fs.isRegularFile o.path = true
    ∧ fs.isExecutable o.path = false := by
  by_cases h1 : fs.pathExists o.path = false
  · rw [processOutput, if_pos h1] at h; exact Except.noConfusion h
  · by_cases h3 : parseHashType o.hashAlgo = .unknownHT
    · rw [processOutput, if_neg h1, if_neg hne, if_pos h3] at h
      exact Except.noConfusion h
    · by_cases h4 : o.hash ≠ fs.hashFile (parseHashType o.hashAlgo) o.path
      · rw [processOutput, if_neg h1, if_neg hne, if_neg h3, if_pos h4] at h
        exact Except.noConfusion h
      · by_cases h5 : ¬ (fs.isRegularFile o.path = true ∧ fs.isExecutable o.path = false)
        · rw [processOutput, if_neg h1, if_neg hne, if_neg h3, if_neg h4, if_pos h5] at h
          exact Except.noConfusion h
        · rw [not_not] at h4 h5
          exact ⟨h3, h4, h5.1, h5.2⟩

theorem processOutput_ok_shape (fs : FS) (drvPath : Path) (allPaths : List Path)
    (o : DerivationOutput) (e : OutputInfo)
    (h : processOutput fs drvPath allPaths o = .ok e) :
    e = ⟨o.path, scanRefs fs allPaths o.path, fs.hashPath o.path⟩ := by
  by_cases h1 : fs.pathExists o.path = false
  · rw [processOutput, if_pos h1] at h; exact Except.noConfusion h
  · by_cases h2 : o.hash = ""
    · rw [processOutput, if_neg h1, if_pos h2] at h
      injection h with h; exact h.symm
    · by_cases h3 : parseHashType o.hashAlgo = .unknownHT
      · rw [processOutput, if_neg h1, if_neg h2, if_pos h3] at h
        exact Except.noConfusion h
      · by_cases h4 : o.hash ≠ fs.hashFile (parseHashType o.hashAlgo) o.path
        · rw [processOutput, if_neg h1, if_neg h2, if_neg h3, if_pos h4] at h
          exact Except.noConfusion h
        · by_cases h5 : ¬ (fs.isRegularFile o.path = true ∧ fs.isExecutable o.path = false)
          · rw [processOutput, if_neg h1, if_neg h2, if_neg h3, if_neg h4, if_pos h5] at h
            exact Except.noConfusion h
          · rw [processOutput, if_neg h1, if_neg h2, if_neg h3, if_neg h4, if_neg h5] at h
            injection h with h; exact h.symm

theorem closureEntries_cons_inv (fs : FS) (drvPath : Path) (allPaths : List Path)
    (name : String) (o : DerivationOutput) (rest : List (String × DerivationOutput))
    (es : List OutputInfo)
    (h : closureEntries fs drvPath allPaths ((name, o) :: rest) = .ok es) :
    ∃ e es', processOutput fs drvPath allPaths o = .ok e
      ∧ closureEntries fs drvPath allPaths rest = .ok es'
      ∧ es = e :: es' := by
  rw [closureEntries] at h
  cases hp : processOutput fs drvPath allPaths o with
  | error err => rw [hp] at h; exact Except.noConfusion h
  | ok e =>
    rw [hp] at h
    cases hr : closureEntries fs drvPath allPaths rest with
    | error err => rw [hr] at h; exact Except.noConfusion h
    | ok es' =>
      rw [hr] at h
      injection h with h
      exact ⟨e, es', rfl, rfl, h.symm⟩

theorem processOutput_mismatch (fs : FS) (drvPath : Path) (allPaths : List Path)
    (o : DerivationOutput)
    (hpe : fs.pathExists o.path = true) (hne : o.hash ≠ "")
    (hht : parseHashType o.hashAlgo ≠ .unknownHT)
    (hmm : o.hash ≠ fs.hashFile (parseHashType o.hashAlgo) o.path) :
    processOutput fs drvPath allPaths o
      = .error (.hashMismatch o.path o.hashAlgo o.hash
          (fs.hashFile (parseHashType o.hashAlgo) o.path)) := by
  unfold processOutput
  rw [if_neg (by simp [hpe]), if_neg hne, if_neg hht, if_pos hmm]

/-- C4: registration only succeeds when every fixed output (non-empty
declared hash) is a non-executable regular file whose content hash under
the declared algorithm equals the declared hash; and when the first
output is a fixed output whose actual file hash differs from the
declared one, computeClosure aborts with an error naming the expected
and the actual hash, producing no registration trace at all. -/
theorem fixedOutput_validation (fs : FS) (drvPath : Path) (allPaths : List Path)
    (outputs : List (String × DerivationOutput)) :
    (∀ es, closureEntries fs drvPath allPaths outputs = .ok es →
      ∀ no ∈ outputs, no.2.hash ≠ "" →
        parseHashType no.2.hashAlgo ≠ .unknownHT
        ∧ no.2.hash = fs.hashFile (parseHashType no.2.hashAlgo) no.2.path
        ∧ fs.isRegularFile no.2.path = true
        ∧ fs.isExecutable no.2.path = false)
    ∧ (∀ name o rest, outputs = (name, o) :: rest →
        fs.pathExists o.path = true → o.hash ≠ "" →
        parseHashType o.hashAlgo ≠ .unknownHT →
        o.hash ≠ fs.hashFile (parseHashType o.hashAlgo) o.path →
        computeClosureEvents fs drvPath allPaths outputs
          = .error (.hashMismatch o.path o.hashAlgo o.hash
              (fs.hashFile (parseHashType o.hashAlgo) o.path))) := by
  constructor
  · induction outputs with
    | nil => intro es _ no hno; cases hno
    | cons p rest ih =>
      intro es hok no hno hne
      obtain ⟨name, o⟩ := p
      obtain ⟨e, es', hp, hr, _⟩ := closureEntries_cons_inv fs drvPath allPaths
        name o rest es hok
      rcases List.mem_cons.mp hno with h | h
      · subst h
        exact processOutput_ok_fixed fs drvPath allPaths o e hp hne
      · exact ih es' hr no h hne
  · intro name o rest houts hpe hne hht hmm
    subst houts
    have hpo := processOutput_mismatch fs drvPath allPaths o hpe hne hht hmm
    rw [computeClosureEvents, closureEntries, hpo]
    rfl

/-- A filesystem whose files all hash (under any algorithm) to cafe. -/
def fsCafe : FS :=
  { pathExists := fun _ => true
    isRegularFile := fun _ => true
    isExecutable := fun _ => false
    hashFile := fun _ _ => "cafe"
    hashPath := fun _ => "0123"
    filterRefs := fun _ c => c }

def fixedOutputGood : List (String × DerivationOutput) :=
  [("out", ⟨"/nix/store/ccc-fetch", "sha256", "cafe"⟩)]

def fixedOutputBad : List (String × DerivationOutput) :=
  [("out", ⟨"/nix/store/ccc-fetch", "sha256", "beef"⟩)]

/-- Witness for C4: on a matching fixed output the checks pass, and on a
mismatching one computeClosure reports the expected and actual hash. -/
theorem fixedOutput_validation_witness :
    ("beef" : String) ≠ fsCafe.hashFile (parseHashType "sha256") "/nix/store/ccc-fetch"
    ∧ computeClosureEvents fsCafe "/nix/store/ddd.drv" [] fixedOutputBad
        = .error (.hashMismatch "/nix/store/ccc-fetch" "sha256" "beef" "cafe")
    ∧ ("cafe" : String) = fsCafe.hashFile (parseHashType "sha256") "/nix/store/ccc-fetch" := by
  have hbad := (fixedOutput_validation fsCafe "/nix/store/ddd.drv" [] fixedOutputBad).2
    "out" ⟨"/nix/store/ccc-fetch", "sha256", "beef"⟩ [] rfl rfl (by decide) (by decide)
    (by decide)
  have hgood := (fixedOutput_validation fsCafe "/nix/store/ddd.drv" [] fixedOutputGood).1
    [⟨"/nix/store/ccc-fetch", [], "0123"⟩] rfl
    ("out", ⟨"/nix/store/ccc-fetch", "sha256", "cafe"⟩) (List.mem_cons_self _ _)
    (by decide)
  exact ⟨by decide, hbad, hgood.2.1⟩

theorem closureEntries_refs (fs : FS) (drvPath : Path) (allPaths : List Path)
    (outputs : List (String × DerivationOutput)) (es : List OutputInfo)
    (hok : closureEntries fs drvPath allPaths outputs = .ok es) :
    ∀ e ∈ es, e.refs = scanRefs fs allPaths e.path := by
  induction outputs generalizing es with
  | nil =>
    rw [closureEntries] at hok
    injection hok with hok
    rw [← hok]
    intro e he; cases he
  | cons p rest ih =>
    obtain ⟨name, o⟩ := p
    obtain ⟨e0, es', hp, hr, hes⟩ := closureEntries_cons_inv fs drvPath allPaths
      name o rest es hok
    subst hes
    intro e he
    rcases List.mem_cons.mp he with h | h
    · rw [h, processOutput_ok_shape fs drvPath allPaths o e0 hp]
    · exact ih es' hr e h

/-- C9: for every output entry produced by the computeClosure scan, the
reference set is empty when the nix-support/no-scan marker file exists
under the output, and otherwise is exactly what filterReferences finds
among the candidate paths (allPaths); and exactly that set is written by
the setReferences event of the registration trace. -/
theorem referenceScan_per_output (fs : FS) (drvPath : Path) (allPaths : List Path)
    (outputs : List (String × DerivationOutput)) (es : List OutputInfo)
    (hok : closureEntries fs drvPath allPaths outputs = .ok es) :
    ∀ e ∈ es,
      (noScanMarker fs e.path = true → e.refs = [])
      ∧ (noScanMarker fs e.path = false → e.refs = fs.filterRefs e.path allPaths)
      ∧ Action.dbWrite (.setRefs e.path e.refs) ∈ closureTrace es := by
  intro e he
  have hre := closureEntries_refs fs drvPath allPaths outputs es hok e he
  refine ⟨?_, ?_, ?_⟩
  · intro hm; rw [hre, scanRefs, if_pos hm]
  · intro hm; rw [hre, scanRefs, if_neg (by simp [hm])]
  · rw [closureTrace]
    refine List.mem_append_left _ (List.mem_append_right _ ?_)
    exact List.mem_cons_of_mem _
      (List.mem_map_of_mem Action.dbWrite (setRefs_mem_writesOf es e he))

/-- A filesystem where the marker file exists only under marked paths
and filterReferences reports the single candidate that is a substring
match. -/
def fsScan : FS :=
  { pathExists := fun p => !(p = "/nix/store/out-a/nix-support/no-scan")
    isRegularFile := fun _ => true
    isExecutable := fun _ => false
    hashFile := fun _ _ => "f3a2"
    hashPath := fun _ => "0123"
    filterRefs := fun _ _ => ["/nix/store/dep-1"] }

def outputsScan : List (String × DerivationOutput) :=
  [("out", ⟨"/nix/store/out-a", "", ""⟩)]

/-- Witness for C9: a concrete unmarked output whose registered
reference set is exactly the filterReferences result. -/
theorem referenceScan_per_output_witness :
    closureEntries fsScan "/nix/store/ddd.drv" ["/nix/store/dep-1"] outputsScan
        = .ok [⟨"/nix/store/out-a", ["/nix/store/dep-1"], "0123"⟩]
    ∧ (noScanMarker fsScan "/nix/store/out-a" = false →
        (["/nix/store/dep-1"] : List Path)
          = fsScan.filterRefs "/nix/store/out-a" ["/nix/store/dep-1"]) := by
  have h := referenceScan_per_output fsScan "/nix/store/ddd.drv" ["/nix/store/dep-1"]
    outputsScan [⟨"/nix/store/out-a", ["/nix/store/dep-1"], "0123"⟩] rfl
    ⟨"/nix/store/out-a", ["/nix/store/dep-1"], "0123"⟩ (List.mem_cons_self _ _)
  exact ⟨rfl, h.2.1⟩

/- ----------------------------------------------------------------- -/
/- SubstitutionGoal::finished.                                       -/
/- ----------------------------------------------------------------- -/

/-- Exit status of a reaped child process.  Modelled from the spec:
statusOk (util.cc, not among the coordinator sources) holds exactly for
a normal exit with code zero. -/
inductive ProcStatus where
  | exited (code : Nat)
  | signalled (sig : Nat)
deriving DecidableEq

def statusOk : ProcStatus → Bool
  | .exited 0 => true
  | _ => false

/-- Outcome of SubstitutionGoal::finished: either the SubstError branch
(log the failure, set the state back to tryNext and wake up), or the
successful branch together with its event trace. -/
inductive SubstOutcome where
  | retryNext
  | registered (events : List Action)
deriving DecidableEq

/-- The event trace of the successful branch of finished:
canonicalisation, then one transaction containing only the
registerValidPath write of the content hash, then marking the output
lock for deletion.  There is no setReferences write and no reference
scan: the references already declared in the metadata store (read by
init) are left as they are. -/
def substFinishedEvents (fs : FS) (storePath : Path) : List Action :=
  [Action.canonicalise storePath, Action.beginTxn,
   Action.dbWrite (.registerValid storePath (fs.hashPath storePath)),
   Action.commitTxn, Action.lockSetDeletion]

/-- SubstitutionGoal::finished after the child has been reaped: a bad
exit status or a missing store path raises SubstError, which is caught
and sends the goal back to tryNext; otherwise the path is canonicalised,
hashed and registered. -/
def substFinished (fs : FS) (storePath : Path) (status : ProcStatus) : SubstOutcome :=
  if statusOk status = false ∨ fs.pathExists storePath = false then .retryNext
  else .registered (substFinishedEvents fs storePath)

def isSetRefsWrite : Action → Bool
  | .dbWrite (.setRefs _ _) => true
  | _ => false

/-- A filesystem on which the substituted path exists. -/
def fsSubst : FS :=
  { pathExists := fun _ => true
    isRegularFile := fun _ => true
    isExecutable := fun _ => false
    hashFile := fun _ _ => "f3a2"
    hashPath := fun _ => "4567"
    filterRefs := fun _ c => c }

/-- C2 counterexample: on a successful substitution of a concrete path
the registration transaction contains no setReferences write at all, so
the previously declared reference set is not written together with the
content hash in that transaction (the claim that it is registered there
fails); the references are simply the ones already present in the
metadata store. -/
theorem substFinished_no_refs_counterexample :
    substFinished fsSubst "/nix/store/eee-sub" (.exited 0)
      = .registered (substFinishedEvents fsSubst "/nix/store/eee-sub")
    ∧ (substFinishedEvents fsSubst "/nix/store/eee-sub").filter isSetRefsWrite = [] :=
  ⟨rfl, rfl⟩

/-- C2 (amended): on non-zero exit status or missing output the goal
registers nothing and goes back to tryNext; otherwise the path is
canonicalised, hashed, and registered valid with its content hash in one
transaction whose lock is only released after commit — but the
transaction contains no reference write: the previously declared
reference set (fetched from the metadata store in init) stays as it is,
and the produced output is not re-scanned. -/
theorem substFinished_registration (fs : FS) (p : Path) (st : ProcStatus) :
    (statusOk st = false ∨ fs.pathExists p = false →
      substFinished fs p st = .retryNext)
    ∧ (statusOk st = true → fs.pathExists p = true →
        substFinished fs p st = .registered (substFinishedEvents fs p)
        ∧ (substFinishedEvents fs p).filter isSetRefsWrite = []
        ∧ Action.dbWrite (.registerValid p (fs.hashPath p)) ∈ substFinishedEvents fs p
        ∧ Action.commitTxn ∈ substFinishedEvents fs p
        ∧ Action.lockSetDeletion ∈ substFinishedEvents fs p) := by
  constructor
  · intro h
    rw [substFinished, if_pos h]
  · intro h1 h2
    have hcond : ¬ (statusOk st = false ∨ fs.pathExists p = false) := by
      simp [h1, h2]
    refine ⟨by rw [substFinished, if_neg hcond], rfl, ?_, ?_, ?_⟩
    · simp [substFinishedEvents]
    · simp [substFinishedEvents]
    · simp [substFinishedEvents]

/-- Witness for C2 (amended) at a concrete successful substitution. -/
theorem substFinished_registration_witness :
    statusOk (.exited 0) = true
    ∧ fsSubst.pathExists "/nix/store/fff-sub" = true
    ∧ substFinished fsSubst "/nix/store/fff-sub" (.exited 0)
        = .registered (substFinishedEvents fsSubst "/nix/store/fff-sub") := by
  have h := (substFinished_registration fsSubst "/nix/store/fff-sub" (.exited 0)).2 rfl rfl
  exact ⟨rfl, rfl, h.1⟩

/- ----------------------------------------------------------------- -/
/- The Worker: child accounting and build slots.                     -/
/- ----------------------------------------------------------------- -/

/-- What the worker remembers for each running child process. -/
structure ChildInfo where
  goalId : Nat
  fdOutput : Nat
  inBuildSlot : Bool
deriving DecidableEq

/-- The scheduler state that child registration touches: the children
map (keyed by pid), the occupied-slot counter, and the parked and awake
goal sets. -/
structure WorkerState where
  children : List (Nat × ChildInfo)
  nrChildren : Nat
  wantingToBuild : List Nat
  awake : List Nat
deriving DecidableEq

def canBuildMore (maxBuildJobs : Nat) (s : WorkerState) : Bool :=
  decide (s.nrChildren < maxBuildJobs)

def wakeUp (s : WorkerState) (g : Nat) : WorkerState :=
  { s with awake := g :: s.awake }

def childStarted (s : WorkerState) (goal pid fd : Nat) (inBuildSlot : Bool) :
    WorkerState :=
  { s with children := s.children ++ [(pid, ⟨goal, fd, inBuildSlot⟩)],
           nrChildren := if inBuildSlot then s.nrChildren + 1 else s.nrChildren }

/-- The childStarted call made by tryBuildHook for the forked hook:
the source passes inBuildSlot = false. -/
def tryBuildHookChildStarted (s : WorkerState) (goal pid fd : Nat) : WorkerState :=
  childStarted s goal pid fd false

def lookupChild : List (Nat × ChildInfo) → Nat → Option ChildInfo
  | [], _ => none
  | (q, c) :: rest, pid => if q = pid then some c else lookupChild rest pid

/-- Worker::childTerminated: the pid must be registered (the source
asserts this); the child is removed, the slot counter is decremented
when the child occupied a slot, and with wakeSleepers every goal parked
in wantingToBuild is woken and the parked set cleared. -/
def childTerminated (s : WorkerState) (pid : Nat) (wakeSleepers : Bool) :
    Option WorkerState :=
  match lookupChild s.children pid with
  | none => none
  | some c =>
    let s1 : WorkerState :=
      { s with children := s.children.filter (fun kv => kv.1 ≠ pid),
               nrChildren := if c.inBuildSlot then s.nrChildren - 1 else s.nrChildren }
    if wakeSleepers then
      some { s1 with awake := s.wantingToBuild ++ s1.awake, wantingToBuild := [] }
    else
      some s1

def countSlots (l : List (Nat × ChildInfo)) : Nat :=
  (l.filter (fun kv => kv.2.inBuildSlot)).length

/-- The worker invariant: the children map has one entry per pid and
nrChildren counts exactly the children registered with inBuildSlot. -/
def WFWorker (s : WorkerState) : Prop :=
  (s.children.map Prod.fst).Nodup ∧ s.nrChildren = countSlots s.children

theorem countSlots_cons (q : Nat) (d : ChildInfo) (rest : List (Nat × ChildInfo)) :
    countSlots ((q, d) :: rest)
      = (if d.inBuildSlot then 1 else 0) + countSlots rest := by
  cases hd : d.inBuildSlot <;>
    simp [countSlots, List.filter_cons, hd, Nat.add_comm]

theorem countSlots_append (l1 l2 : List (Nat × ChildInfo)) :
    countSlots (l1 ++ l2) = countSlots l1 + countSlots l2 := by
  simp [countSlots, List.filter_append]

theorem lookupChild_mem (l : List (Nat × ChildInfo)) (pid : Nat) (c : ChildInfo)
    (h : lookupChild l pid = some c) : (pid, c) ∈ l := by
  induction l with
  | nil => cases h
  | cons kv rest ih =>
    obtain ⟨q, d⟩ := kv
    rw [lookupChild] at h
    by_cases hq : q = pid
    · rw [if_pos hq] at h
      injection h with h
      rw [← hq, ← h]
      exact List.mem_cons_self _ _
    · rw [if_neg hq] at h
      exact List.mem_cons_of_mem _ (ih h)

theorem countSlots_pos_of_slot (l : List (Nat × ChildInfo)) (pid : Nat) (c : ChildInfo)
    (h : lookupChild l pid = some c) (hs : c.inBuildSlot = true) :
    1 ≤ countSlots l := by
  have hm : (pid, c) ∈ l.filter (fun kv => kv.2.inBuildSlot) :=
    List.mem_filter.mpr ⟨lookupChild_mem l pid c h, by simp [hs]⟩
  exact List.length_pos_of_mem hm

theorem countSlots_erase (l : List (Nat × ChildInfo)) (pid : Nat) (c : ChildInfo)
    (hnd : (l.map Prod.fst).Nodup) (h : lookupChild l pid = some c) :
    countSlots (l.filter (fun kv => kv.1 ≠ pid))
      = countSlots l - (if c.inBuildSlot then 1 else 0) := by
  induction l with
  | nil => cases h
  | cons kv rest ih =>
    obtain ⟨q, d⟩ := kv
    rw [List.map_cons, List.nodup_cons] at hnd
    rw [lookupChild] at h
    by_cases hq : q = pid
    · rw [if_pos hq] at h
      injection h with h
      subst hq
      subst h
      have hkeep : rest.filter (fun kv => kv.1 ≠ q) = rest := by
        apply List.filter_eq_self.mpr
        intro kv hkv
        have : kv.1 ∈ rest.map Prod.fst := List.mem_map_of_mem Prod.fst hkv
        simp only [decide_eq_true_eq]
        intro he
        exact hnd.1 (he ▸ this)
      rw [List.filter_cons, countSlots_cons]
      rw [if_neg (by simp)]
      rw [hkeep]
      cases hd2 : d.inBuildSlot <;> simp [hd2]
    · rw [if_neg hq] at h
      have hrec := ih hnd.2 h
      rw [List.filter_cons]
      rw [if_pos (by simpa using hq)]
      rw [countSlots_cons, countSlots_cons, hrec]
      cases hc : c.inBuildSlot
      · simp
      · have hge := countSlots_pos_of_slot rest pid c h hc
        cases hd : d.inBuildSlot <;> simp only [if_true, if_false, Bool.false_eq_true] <;> omega

/-- C5: canBuildMore holds exactly when nrChildren is strictly below
maxBuildJobs; childStarted preserves the invariant that nrChildren
counts exactly the running children registered with inBuildSlot;
build-hook children are registered with inBuildSlot false and never
change the counter; and childTerminated with wakeSleepers preserves the
invariant, wakes every goal parked in wantingToBuild and empties the
parked set. -/
theorem buildSlot_accounting (maxBuildJobs : Nat) :
    (∀ s, canBuildMore maxBuildJobs s = true ↔ s.nrChildren < maxBuildJobs)
    ∧ (∀ s goal pid fd slot, WFWorker s → pid ∉ s.children.map Prod.fst →
        WFWorker (childStarted s goal pid fd slot))
    ∧ (∀ s goal pid fd,
        tryBuildHookChildStarted s goal pid fd = childStarted s goal pid fd false
        ∧ (tryBuildHookChildStarted s goal pid fd).nrChildren = s.nrChildren)
    ∧ (∀ s pid s', WFWorker s → childTerminated s pid true = some s' →
        WFWorker s' ∧ s'.wantingToBuild = []
        ∧ ∀ g ∈ s.wantingToBuild, g ∈ s'.awake) := by
  refine ⟨?_, ?_, ?_, ?_⟩
  · intro s
    simp [canBuildMore]
  · intro s goal pid fd slot hWF hpid
    unfold WFWorker
    refine ⟨?_, ?_⟩
    · show ((s.children ++ [(pid, ChildInfo.mk goal fd slot)]).map Prod.fst).Nodup
      rw [List.map_append]
      rw [List.nodup_append]
      exact ⟨hWF.1, List.nodup_singleton _,
        by simpa [List.disjoint_singleton] using hpid⟩
    · show (if slot then s.nrChildren + 1 else s.nrChildren)
        = countSlots (s.children ++ [(pid, ChildInfo.mk goal fd slot)])
      rw [countSlots_append, hWF.2]
      cases slot <;> simp [countSlots]
  · intro s goal pid fd
    exact ⟨rfl, rfl⟩
  · intro s pid s' hWF hterm
    rw [childTerminated] at hterm
    cases hl : lookupChild s.children pid with
    | none => rw [hl] at hterm; exact Option.noConfusion hterm
    | some c =>
      rw [hl] at hterm
      simp only [if_pos rfl] at hterm
      injection hterm with hterm
      subst hterm
      unfold WFWorker
      refine ⟨⟨?_, ?_⟩, rfl, ?_⟩
      · exact hWF.1.sublist (List.Sublist.map Prod.fst (List.filter_sublist _))
      · show (if c.inBuildSlot then s.nrChildren - 1 else s.nrChildren)
          = countSlots (s.children.filter (fun kv => kv.1 ≠ pid))
        rw [countSlots_erase s.children pid c hWF.1 hl, ← hWF.2]
        cases c.inBuildSlot <;> simp
      · intro g hg
        exact List.mem_append_left _ hg

def workerOneChild : WorkerState :=
  { children := [(42, ⟨7, 3, true⟩)]
    nrChildren := 1
    wantingToBuild := [9]
    awake := [] }

/-- Witness for C5: terminating the only (slot-occupying) child of a
concrete worker preserves the invariant, wakes the parked goal and
clears the parked set. -/
theorem buildSlot_accounting_witness :
    WFWorker workerOneChild
    ∧ (canBuildMore 1 workerOneChild = true ↔ workerOneChild.nrChildren < 1)
    ∧ childTerminated workerOneChild 42 true
        = some { children := [], nrChildren := 0, wantingToBuild := [], awake := [9] }
    ∧ WFWorker { children := [], nrChildren := 0, wantingToBuild := [], awake := [9] } := by
  have hWF : WFWorker workerOneChild := by
    unfold WFWorker
    exact ⟨by decide, rfl⟩
  have h := buildSlot_accounting 1
  have hterm : childTerminated workerOneChild 42 true
      = some { children := [], nrChildren := 0, wantingToBuild := [], awake := [9] } := rfl
  exact ⟨hWF, h.1 workerOneChild, hterm,
    (h.2.2.2 workerOneChild 42 _ hWF hterm).1⟩

/- ----------------------------------------------------------------- -/
/- Worker::waitForBuildSlot and the postpone branch of tryToBuild.   -/
/- ----------------------------------------------------------------- -/

inductive WorkerError where
  | hookInappropriatePostpone
deriving DecidableEq

/-- Worker::waitForBuildSlot: with reallyWait set and no running
children it raises the typed error about an inappropriate postpone
reply from the build hook; without reallyWait and with a free slot the
goal is woken immediately; otherwise it is parked in wantingToBuild. -/
def waitForBuildSlot (maxBuildJobs : Nat) (s : WorkerState) (g : Nat)
    (reallyWait : Bool) : Except WorkerError WorkerState :=
  if reallyWait = true ∧ s.children = [] then
    .error .hookInappropriatePostpone
  else if reallyWait = false ∧ canBuildMore maxBuildJobs s = true then
    .ok (wakeUp s g)
  else
    .ok { s with wantingToBuild := g :: s.wantingToBuild }

/-- The rpPostpone branch of DerivationGoal::tryToBuild: the goal parks
itself with reallyWait set. -/
def tryToBuildPostpone (maxBuildJobs : Nat) (s : WorkerState) (g : Nat) :
    Except WorkerError WorkerState :=
  waitForBuildSlot maxBuildJobs s g true

/-- C8: when the hook replied postpone and the reaped hook child left
the worker with no running children, parking the goal with reallyWait
raises the typed inappropriate-postpone error instead of parking the
goal forever. -/
theorem waitForBuildSlot_postpone_error (maxBuildJobs : Nat) (s : WorkerState)
    (g : Nat) (h : s.children = []) :
    tryToBuildPostpone maxBuildJobs s g = .error .hookInappropriatePostpone := by
  rw [tryToBuildPostpone, waitForBuildSlot, if_pos ⟨rfl, h⟩]

def workerNoChildren : WorkerState :=
  { children := [], nrChildren := 0, wantingToBuild := [], awake := [] }

/-- Witness for C8 at a concrete childless worker. -/
theorem waitForBuildSlot_postpone_error_witness :
    workerNoChildren.children = []
    ∧ tryToBuildPostpone 1 workerNoChildren 5 = .error .hookInappropriatePostpone :=
  ⟨rfl, waitForBuildSlot_postpone_error 1 workerNoChildren 5 rfl⟩

/- ----------------------------------------------------------------- -/
/- Goal bookkeeping: waiteeDone and amDone.                          -/
/- ----------------------------------------------------------------- -/

/-- The goal-graph bookkeeping: per goal its waitees, its waiters, its
failed-waitee counter and its done flag, plus the worker's awake set
and top-level goal set.  Goals are identified by number; waiter links
are weak in the source, so notification delivery is filtered by a
liveness predicate at the use site. -/
structure Sched where
  waitees : Nat → Finset Nat
  waiters : Nat → Finset Nat
  nrFailed : Nat → Nat
  doneFlag : Nat → Bool
  awakeSet : Finset Nat
  topGoals : Finset Nat

/-- Point update of a per-goal table. -/
def updF {α : Type} (f : Nat → α) (k : Nat) (v : α) : Nat → α :=
  fun x => if x = k then v else f x

/-- Goal::waiteeDone: the waitee must be present (the source asserts
this); it is erased and the failure counter incremented on failure;
when the remaining waitee set is empty, or on failure with keep-going
off, the goal removes itself from the waiter sets of its remaining
waitees, clears its waitee set and is woken. -/
def waiteeDone (keepGoing : Bool) (s : Sched) (g w : Nat) (success : Bool) :
    Option Sched :=
  if w ∈ s.waitees g then
    let ws := (s.waitees g).erase w
    let nf := updF s.nrFailed g (if success then s.nrFailed g else s.nrFailed g + 1)
    if ws = ∅ ∨ (success = false ∧ keepGoing = false) then
      some { s with
        waitees := updF s.waitees g ∅
        nrFailed := nf
        waiters := fun u => if u ∈ ws then (s.waiters u).erase g else s.waiters u
        awakeSet := insert g s.awakeSet }
    else
      some { s with waitees := updF s.waitees g ws, nrFailed := nf }
  else none

/-- C6: waiteeDone removes the completed waitee, increments the failure
counter exactly on failure, wakes the goal exactly when the remaining
waitee set is empty or keep-going is off and the call reported failure,
and in the latter failure case detaches the goal from every remaining
waitee and clears its waitee set. -/
theorem waiteeDone_transition (keepGoing success : Bool) (s : Sched) (g w : Nat)
    (h : w ∈ s.waitees g) :
    ∃ s', waiteeDone keepGoing s g w success = some s'
      ∧ w ∉ s'.waitees g
      ∧ s'.nrFailed g = s.nrFailed g + (if success then 0 else 1)
      ∧ s'.awakeSet
          = (if (s.waitees g).erase w = ∅ ∨ (success = false ∧ keepGoing = false)
              then insert g s.awakeSet else s.awakeSet)
      ∧ ((success = false ∧ keepGoing = false) →
          s'.waitees g = ∅ ∧ ∀ u ∈ (s.waitees g).erase w, g ∉ s'.waiters u) := by
  by_cases hc : (s.waitees g).erase w = ∅ ∨ (success = false ∧ keepGoing = false)
  · refine ⟨{ s with
        waitees := updF s.waitees g ∅
        nrFailed := updF s.nrFailed g
          (if success then s.nrFailed g else s.nrFailed g + 1)
        waiters := fun u => if u ∈ (s.waitees g).erase w
          then (s.waiters u).erase g else s.waiters u
        awakeSet := insert g s.awakeSet }, ?_, ?_, ?_, ?_, ?_⟩
    · rw [waiteeDone, if_pos h]
      rw [if_pos hc]
    · show w ∉ updF s.waitees g ∅ g
      simp [updF]
    · show updF s.nrFailed g (if success then s.nrFailed g else s.nrFailed g + 1) g
        = s.nrFailed g + (if success then 0 else 1)
      cases success <;> simp [updF]
    · rw [if_pos hc]
    · intro _
      refine ⟨by simp [updF], ?_⟩
      intro u hu
      show g ∉ (if u ∈ (s.waitees g).erase w
        then (s.waiters u).erase g else s.waiters u)
      rw [if_pos hu]
      exact Finset.not_mem_erase g _
  · refine ⟨{ s with
        waitees := updF s.waitees g ((s.waitees g).erase w)
        nrFailed := updF s.nrFailed g
          (if success then s.nrFailed g else s.nrFailed g + 1) }, ?_, ?_, ?_, ?_, ?_⟩
    · rw [waiteeDone, if_pos h]
      rw [if_neg hc]
    · show w ∉ updF s.waitees g ((s.waitees g).erase w) g
      simp [updF]
    · show updF s.nrFailed g (if success then s.nrFailed g else s.nrFailed g + 1) g
        = s.nrFailed g + (if success then 0 else 1)
      cases success <;> simp [updF]
    · rw [if_neg hc]
    · intro hf
      exact absurd (Or.inr hf) hc

def schedTwo : Sched :=
  { waitees := fun n => if n = 0 then {1} else ∅
    waiters := fun n => if n = 1 then {0} else ∅
    nrFailed := fun _ => 0
    doneFlag := fun _ => false
    awakeSet := ∅
    topGoals := {0} }

/-- Witness for C6: completing the only waitee of a concrete goal. -/
theorem waiteeDone_transition_witness :
    1 ∈ schedTwo.waitees 0
    ∧ (waiteeDone true schedTwo 0 1 true).isSome = true := by
  have h := waiteeDone_transition true true schedTwo 0 1 (by decide)
  obtain ⟨s', heq, _⟩ := h
  exact ⟨by decide, by rw [heq]; rfl⟩

/-- Goal::amDone followed by Worker::removeGoal: a second call trips the
done-flag assertion; otherwise each still-live waiter is sent one
waiteeDone notification carrying the goal's success flag, the waiter set
is cleared and the goal leaves the worker's top-level goal set. -/
def amDone (live : Nat → Bool) (s : Sched) (g : Nat) (success : Bool) :
    Option (Sched × List (Nat × Bool)) :=
  if s.doneFlag g = true then none
  else
    some ({ s with
        doneFlag := updF s.doneFlag g true
        waiters := updF s.waiters g ∅
        topGoals := s.topGoals.erase g },
      (((s.waiters g).filter (fun u => live u = true)).sort (· ≤ ·)).map
        fun u => (u, success))

/-- C10: amDone aborts when the done flag is already set (so it runs at
most once per goal); on its single run every live waiter receives
exactly one notification carrying the success flag and nothing else is
notified, the waiter set is cleared, and the goal is removed from the
worker's top-level goals. -/
theorem amDone_once_notify (live : Nat → Bool) (s : Sched) (g : Nat) (success : Bool) :
    (s.doneFlag g = true → amDone live s g success = none)
    ∧ (s.doneFlag g = false →
        ∃ s' evts, amDone live s g success = some (s', evts)
          ∧ s'.doneFlag g = true
          ∧ s'.waiters g = ∅
          ∧ g ∉ s'.topGoals
          ∧ evts.Nodup
          ∧ (∀ u, u ∈ s.waiters g → live u = true → (u, success) ∈ evts)
          ∧ (∀ u b, (u, b) ∈ evts →
              u ∈ s.waiters g ∧ live u = true ∧ b = success)) := by
  constructor
  · intro h
    rw [amDone, if_pos h]
  · intro h
    refine ⟨_, _, by rw [amDone, if_neg (by simp [h])], ?_, ?_, ?_, ?_, ?_, ?_⟩
    · simp [updF]
    · simp [updF]
    · exact Finset.not_mem_erase g _
    · apply List.Nodup.map
      · intro a b hab
        exact ((Prod.mk.injEq _ _ _ _).mp hab).1
      · exact Finset.sort_nodup _ _
    · intro u hu hl
      exact List.mem_map_of_mem _
        ((Finset.mem_sort _).mpr (Finset.mem_filter.mpr ⟨hu, hl⟩))
    · intro u b hub
      rcases List.mem_map.mp hub with ⟨x, hx, hxe⟩
      have hxm := Finset.mem_filter.mp ((Finset.mem_sort _).mp hx)
      obtain ⟨h1, h2⟩ := (Prod.mk.injEq _ _ _ _).mp hxe
      subst h1
      exact ⟨hxm.1, hxm.2, h2.symm⟩

def schedWaiters : Sched :=
  { waitees := fun _ => ∅
    waiters := fun n => if n = 0 then {1, 2} else ∅
    nrFailed := fun _ => 0
    doneFlag := fun _ => false
    awakeSet := ∅
    topGoals := {0} }

/-- Witness for C10 at a concrete goal with two waiters, one live. -/
theorem amDone_once_notify_witness :
    schedWaiters.doneFlag 0 = false
    ∧ (amDone (fun n => n = 1) schedWaiters 0 true).isSome = true := by
  have h := (amDone_once_notify (fun n => n = 1) schedWaiters 0 true).2 rfl
  obtain ⟨s', evts, heq, _⟩ := h
  exact ⟨rfl, by rw [heq]; rfl⟩

/- ----------------------------------------------------------------- -/
/- The pre-fork obstruction check of DerivationGoal::startBuilder.   -/
/- ----------------------------------------------------------------- -/

inductive BuildPrelError where
  | wrongPlatform (required actual : String) (drvPath : Path)
  | obstructed (p : Path)
deriving DecidableEq

/-- The loop of startBuilder over the declared output paths before the
fork: a path that is registered valid aborts with the obstructed-build
error; a path that exists on disk but is not valid is deleted.  The
trace of an aborted run is not recorded: the claims below concern the
error itself and the run that reaches the fork. -/
def checkOutputs (valid : Path → Bool) (fs : FS) :
    List Path → Except BuildPrelError (List Action)
  | [] => .ok []
  | p :: rest =>
    if valid p = true then .error (.obstructed p)
    else
      match checkOutputs valid fs rest with
      | .error e => .error e
      | .ok acts =>
          .ok ((if fs.pathExists p = true then [Action.deletePath p] else []) ++ acts)

/-- startBuilder up to and including the fork of the builder: platform
check, then the output obstruction loop, then the fork event. -/
def startBuilderPrelude (thisSystem : String) (valid : Path → Bool) (fs : FS)
    (drvPath : Path) (drv : Derivation) : Except BuildPrelError (List Action) :=
  if drv.platform ≠ thisSystem then
    .error (.wrongPlatform drv.platform thisSystem drvPath)
  else
    match checkOutputs valid fs (drv.outputs.map fun no => no.2.path) with
    | .error e => .error e
    | .ok acts => .ok (acts ++ [Action.forkBuilder])

theorem checkOutputs_err (valid : Path → Bool) (fs : FS) (ps : List Path)
    (h : ∃ p ∈ ps, valid p = true) :
    ∃ q, valid q = true ∧ checkOutputs valid fs ps = .error (.obstructed q) := by
  induction ps with
  | nil => obtain ⟨p, hp, _⟩ := h; cases hp
  | cons p rest ih =>
    by_cases hv : valid p = true
    · exact ⟨p, hv, by rw [checkOutputs, if_pos hv]⟩
    · obtain ⟨q0, hq0, hvq⟩ := h
      rcases List.mem_cons.mp hq0 with he | he
      · subst he; exact absurd hvq hv
      · obtain ⟨q, hq, heq⟩ := ih ⟨q0, he, hvq⟩
        refine ⟨q, hq, ?_⟩
        rw [checkOutputs, if_neg hv, heq]

theorem checkOutputs_ok (valid : Path → Bool) (fs : FS) :
    ∀ (ps : List Path) (acts : List Action), checkOutputs valid fs ps = .ok acts →
      (∀ p ∈ ps, valid p = false)
      ∧ (∀ p ∈ ps, fs.pathExists p = true → Action.deletePath p ∈ acts) := by
  intro ps
  induction ps with
  | nil =>
    intro acts _
    exact ⟨fun p hp => absurd hp (List.not_mem_nil p),
      fun p hp => absurd hp (List.not_mem_nil p)⟩
  | cons p rest ih =>
    intro acts h
    by_cases hv : valid p = true
    · rw [checkOutputs, if_pos hv] at h; exact Except.noConfusion h
    · rw [checkOutputs, if_neg hv] at h
      cases hr : checkOutputs valid fs rest with
      | error e => rw [hr] at h; exact Except.noConfusion h
      | ok acts0 =>
        rw [hr] at h
        injection h with h
        subst h
        have hrec := ih acts0 hr
        refine ⟨?_, ?_⟩
        · intro q hq
          rcases List.mem_cons.mp hq with he | he
          · subst he
            cases hb : valid q with
            | false => rfl
            | true => exact absurd hb hv
          · exact hrec.1 q he
        · intro q hq hpe
          rcases List.mem_cons.mp hq with he | he
          · subst he
            rw [if_pos hpe]
            exact List.mem_append_left _ (List.mem_cons_self _ _)
          · exact List.mem_append_right _ (hrec.2 q he hpe)

/-- C7: with the right platform, a declared output path that is already
registered valid makes startBuilder fail with the obstructed-build error
(so the builder is never forked); and in a run that reaches the fork, no
output was valid, the fork is the last event, and every output that
existed on disk without being valid was deleted before the fork. -/
theorem startBuilder_obstruction (thisSystem : String) (valid : Path → Bool)
    (fs : FS) (drvPath : Path) (drv : Derivation) :
    ((drv.platform = thisSystem) →
      (∃ no ∈ drv.outputs, valid no.2.path = true) →
      ∃ q, valid q = true
        ∧ startBuilderPrelude thisSystem valid fs drvPath drv
            = .error (.obstructed q))
    ∧ (∀ acts, startBuilderPrelude thisSystem valid fs drvPath drv = .ok acts →
        (∀ no ∈ drv.outputs, valid no.2.path = false)
        ∧ acts.getLast? = some Action.forkBuilder
        ∧ ∀ no ∈ drv.outputs, fs.pathExists no.2.path = true →
            Action.deletePath no.2.path ∈ acts.dropLast) := by
  constructor
  · intro hplat hex
    obtain ⟨no, hno, hv⟩ := hex
    obtain ⟨q, hq, heq⟩ := checkOutputs_err valid fs
      (drv.outputs.map fun no => no.2.path)
      ⟨no.2.path, List.mem_map_of_mem _ hno, hv⟩
    refine ⟨q, hq, ?_⟩
    rw [startBuilderPrelude, if_neg (by simp [hplat]), heq]
  · intro acts hok
    by_cases hplat : drv.platform ≠ thisSystem
    · rw [startBuilderPrelude, if_pos hplat] at hok
      exact Except.noConfusion hok
    · rw [startBuilderPrelude, if_neg hplat] at hok
      cases hco : checkOutputs valid fs (drv.outputs.map fun no => no.2.path) with
      | error e => rw [hco] at hok; exact Except.noConfusion hok
      | ok acts0 =>
        rw [hco] at hok
        injection hok with hok
        subst hok
        have hc := checkOutputs_ok valid fs _ acts0 hco
        refine ⟨?_, ?_, ?_⟩
        · intro no hno
          exact hc.1 no.2.path (List.mem_map_of_mem _ hno)
        · rw [List.getLast?_concat]
        · intro no hno hpe
          rw [List.dropLast_concat]
          exact hc.2 no.2.path (List.mem_map_of_mem _ hno) hpe

def drvStray : Derivation :=
  { outputs := [("out", ⟨"/nix/store/ggg-stray", "", ""⟩)]
    inputDrvs := []
    inputSrcs := []
    platform := "i686-linux"
    builder := "/bin/sh"
    args := []
    env := [] }

/-- Witness for C7: a concrete derivation whose single output exists on
disk but is not valid; the stray file is deleted and the builder forked,
and with the output marked valid instead, the obstructed error occurs. -/
theorem startBuilder_obstruction_witness :
    startBuilderPrelude "i686-linux" (fun _ => false) fsAlwaysThere
        "/nix/store/ggg.drv" drvStray
      = .ok [Action.deletePath "/nix/store/ggg-stray", Action.forkBuilder]
    ∧ (∀ no ∈ drvStray.outputs, (fun (_ : Path) => false) no.2.path = false)
    ∧ (startBuilderPrelude "i686-linux" (fun _ => true) fsAlwaysThere
        "/nix/store/ggg.drv" drvStray).isOk = false := by
  have hok := (startBuilder_obstruction "i686-linux" (fun _ => false) fsAlwaysThere
    "/nix/store/ggg.drv" drvStray).2
    [Action.deletePath "/nix/store/ggg-stray", Action.forkBuilder] rfl
  have herr := (startBuilder_obstruction "i686-linux" (fun _ => true) fsAlwaysThere
    "/nix/store/ggg.drv" drvStray).1 rfl
    ⟨("out", ⟨"/nix/store/ggg-stray", "", ""⟩), List.mem_cons_self _ _, rfl⟩
  obtain ⟨q, _, heq⟩ := herr
  exact ⟨rfl, hok.1, by rw [heq]; rfl⟩

end NixBuild
